import Mathlib

/-!
Shallow embedding of the finite-difference vibrational-mode engine
(`ase/vibrations.py`, class `Vibrations`), together with theorems checking the
specification's claims about it.

Conventions used throughout:
* a force record (one `*.pckl` payload) is a function `ℕ → Fin 3 → α`:
  component `c` of the force on atom `b`;
* the Hessian index `3*k + component` produced by numpy's `ravel` is kept as the
  pair `(k, component)` with `k` a position into the tracked-index list, which
  preserves the row-major ordering;
* floating-point numbers are modelled by an arbitrary field (`ℚ` for concrete
  evaluations, `ℝ` where square roots and exponentials from the source appear).
-/

namespace VibSpec

/-- A per-atom force field: component `c` of the force on atom `b`.  Mirrors a
numpy array of shape `(numAtoms, 3)`. -/
abbrev Force (α : Type) : Type := ℕ → Fin 3 → α

/-- The `method` argument of `Vibrations.read` (asserted to be `'standard'` or
`'frederiksen'` at line 164). -/
inductive Method where
  | standard : Method
  | frederiksen : Method
deriving DecidableEq

/-- The `direction` argument of `Vibrations.read` (asserted to be `'central'`,
`'forward'` or `'backward'` at line 165). -/
inductive Direction where
  | central : Direction
  | forward : Direction
  | backward : Direction
deriving DecidableEq

/-- The `nfree` parameter: `assert nfree in [2, 4]` in `Vibrations.__init__`. -/
inductive NFree where
  | two : NFree
  | four : NFree
deriving DecidableEq

/-- The Frederiksen correction applied to one force record for a displacement of
atom `a` (lines 177-179 / 183-185): `f[a] -= f.sum(0)`, i.e. the force on the
displaced atom itself is decreased by the sum of the forces on all `numAtoms`
atoms (the sum being taken before the in-place update); all other atoms'
forces are unchanged. -/
def fredCorrect {α : Type} [Field α] (numAtoms a : ℕ) (F : Force α) : Force α :=
  Function.update F a (fun c => F a c - ∑ b ∈ Finset.range numAtoms, F b c)

/-- Row/column index of the Hessian built over tracked-index list `idx`:
position `k` into `idx` together with a Cartesian component. -/
abbrev HIdx (idx : List ℕ) : Type := Fin idx.length × Fin 3

/-- The Hessian matrix as filled row by row in `Vibrations.read` (lines
167-196), before the symmetrization step.  Row `(k, ax)` corresponds to
displacing atom `idx.get k` along axis `ax`; `records a ax st` is the cached
force record for displacing atom `a` along `ax` by `st * delta`
(`st ∈ {-2, -1, 1, 2}`) and `feq` is the equilibrium record.  Each row is the
scheme's combination of records, restricted to the tracked atoms, divided by
`2 * delta` (line 195). -/
def preH {α : Type} [Field α] (idx : List ℕ) (numAtoms : ℕ) (method : Method)
    (direction : Direction) (nf : NFree) (delta : α)
    (records : ℕ → Fin 3 → ℤ → Force α) (feq : Force α) :
    Matrix (HIdx idx) (HIdx idx) α :=
  fun r c =>
    let a : ℕ := idx.get r.1
    let ax : Fin 3 := r.2
    let corr : Force α → Force α := fun F =>
      match method with
      | Method.standard => F
      | Method.frederiksen => fredCorrect numAtoms a F
    let fminus : Force α := corr (records a ax (-1))
    let fplus : Force α := corr (records a ax 1)
    let combo : Force α :=
      match direction with
      | Direction.central =>
        match nf with
        | NFree.two => fun b comp => (fminus b comp - fplus b comp) / 2
        | NFree.four => fun b comp =>
            (-(corr (records a ax (-2)) b comp) + 8 * fminus b comp
              - 8 * fplus b comp + corr (records a ax 2) b comp) / 12
      | Direction.forward => fun b comp => feq b comp - fplus b comp
      | Direction.backward => fun b comp => fminus b comp - feq b comp
    combo (idx.get c.1) c.2 / (2 * delta)

/-- The assembled Hessian: after all rows are filled, `H += H.copy().T`
(line 197). -/
def assembledH {α : Type} [Field α] (idx : List ℕ) (numAtoms : ℕ)
    (method : Method) (direction : Direction) (nf : NFree) (delta : α)
    (records : ℕ → Fin 3 → ℤ → Force α) (feq : Force α) :
    Matrix (HIdx idx) (HIdx idx) α :=
  preH idx numAtoms method direction nf delta records feq
    + Matrix.transpose (preH idx numAtoms method direction nf delta records feq)

/-- Modelled from the spec: the claimed central 2-point row formula
`row = ½ · (F(−δ) − F(+δ)) / δ`, restricted to the tracked-atom sub-block,
written as a matrix for comparison with the assembled Hessian. -/
def specCentral2Row {α : Type} [Field α] (idx : List ℕ) (delta : α)
    (records : ℕ → Fin 3 → ℤ → Force α) :
    Matrix (HIdx idx) (HIdx idx) α :=
  fun r c =>
    (records (idx.get r.1) r.2 (-1) (idx.get c.1) c.2
      - records (idx.get r.1) r.2 1 (idx.get c.1) c.2) / 2 / delta

/-- Concrete force records for the central 2-point counterexample: a single
atom whose only nonzero force component is component 1 when displaced along
axis 0, with value `-st` for step count `st`. -/
def exRecords : ℕ → Fin 3 → ℤ → Force ℚ :=
  fun _ ax st _ c => if ax = 0 ∧ c = 1 then ((-st : ℤ) : ℚ) else 0

/-- Concrete equilibrium record (all-zero forces) for counterexamples. -/
def exFeq : Force ℚ := fun _ _ => 0

/-- `self.im` (line 200): the inverse square roots of the tracked atoms'
masses, one per Hessian index (numpy: `np.repeat(m[self.indices]**-0.5, 3)`);
`m b` is the mass of atom `b` from `atoms.get_masses()`. -/
noncomputable def imVec (idx : List ℕ) (m : ℕ → ℝ) : HIdx idx → ℝ :=
  fun r => (Real.sqrt (m (idx.get r.1)))⁻¹

/-- The mass-weighted Hessian passed to the eigensolver (line 201):
`self.im[:, None] * H * self.im`. -/
noncomputable def massWeightedH (idx : List ℕ) (m : ℕ → ℝ)
    (H : Matrix (HIdx idx) (HIdx idx) ℝ) : Matrix (HIdx idx) (HIdx idx) ℝ :=
  fun r c => imVec idx m r * H r c * imVec idx m c

/-- The conversion factor of line 205:
`s = units._hbar * 1e10 / sqrt(units._e * units._amu)`; the three physical
constants live in the external units module and are taken as parameters. -/
noncomputable def convFactor (hbar e amu : ℝ) : ℝ :=
  hbar * 1e10 / Real.sqrt (e * amu)

/-- One spectrum entry (line 206): `s * omega2.astype(complex)**0.5`, as a
pair `(re, im)`.  The principal complex square root of the real eigenvalue
`omega2` is `sqrt omega2` when `omega2 ≥ 0` and `i * sqrt (-omega2)`
otherwise, so a negative eigenvalue yields a purely imaginary entry rather
than an error. -/
noncomputable def hnuEntry (s omega2 : ℝ) : ℝ × ℝ :=
  if 0 ≤ omega2 then (s * Real.sqrt omega2, 0)
  else (0, s * Real.sqrt (-omega2))

/-- The spectrum `self.hnu`: one entry per eigenvalue, in eigensolver order. -/
noncomputable def hnuList (s : ℝ) (eigs : List ℝ) : List (ℝ × ℝ) :=
  eigs.map (hnuEntry s)

/-- `Vibrations.get_mode` (lines 316-319): a zero displacement field over the
full original atom set into which the rows of the mass-rescaled eigenvector
are written by the numpy fancy assignment
`mode[self.indices] = (self.modes[n] * self.im).reshape((-1, 3))` —
one row per tracked index, assigned in list order.  `v` is the selected
eigenvector `self.modes[n]`, indexed like the Hessian rows, so row `k` of the
reshaped block sends component `c` of atom `idx.get k` to
`v (k, c) * (sqrt (m (idx.get k)))⁻¹`. -/
noncomputable def get_mode (idx : List ℕ) (m : ℕ → ℝ) (v : HIdx idx → ℝ) :
    ℕ → Fin 3 → ℝ :=
  (List.finRange idx.length).foldl
    (fun acc k => Function.update acc (idx.get k)
      (fun c => v (k, c) * (Real.sqrt (m (idx.get k)))⁻¹))
    (fun _ _ => 0)

/-- The harmonic-oscillator enthalpy contribution of one retained frequency
`fr` (in cm^-1) at temperature `T` (lines 302-303): with
`x = fr * 100 * hp * cc / kB`, the term is `kB / e * x / (exp (x / T) - 1)`.
The constants `kB`, `e`, `hp`, `cc` stand for `units._k`, `units._e`,
`units._hplanck`, `units._c` of the external units module. -/
noncomputable def enthalpyTerm (kB e hp cc T fr : ℝ) : ℝ :=
  kB / e * (fr * 100 * hp * cc / kB)
    / (Real.exp (fr * 100 * hp * cc / kB / T) - 1)

/-- The harmonic-oscillator entropy contribution of one retained frequency
(lines 312-313): `kB / e * ((x / T) / (exp (x / T) - 1) - log (1 - exp (-x / T)))`. -/
noncomputable def entropyTerm (kB e hp cc T fr : ℝ) : ℝ :=
  kB / e * ((fr * 100 * hp * cc / kB / T)
      / (Real.exp (fr * 100 * hp * cc / kB / T) - 1)
    - Real.log (1 - Real.exp (-(fr * 100 * hp * cc / kB / T))))

/-- `Vibrations.get_enthalpy` (lines 296-304) on an explicit frequency list:
loop over `freq`, accumulating the harmonic term for exactly the entries with
`f.imag == 0 and f.real >= threshold` (the summary's default threshold is
10 cm^-1). -/
noncomputable def get_enthalpy (kB e hp cc T threshold : ℝ)
    (freq : List (ℝ × ℝ)) : ℝ :=
  freq.foldl
    (fun H f =>
      if f.2 = 0 ∧ threshold ≤ f.1 then H + enthalpyTerm kB e hp cc T f.1
      else H)
    0

/-- `Vibrations.get_entropy` (lines 306-314) on an explicit frequency list:
same accumulation pattern with the entropy term. -/
noncomputable def get_entropy (kB e hp cc T threshold : ℝ)
    (freq : List (ℝ × ℝ)) : ℝ :=
  freq.foldl
    (fun S f =>
      if f.2 = 0 ∧ threshold ≤ f.1 then S + entropyTerm kB e hp cc T f.1
      else S)
    0

/-- `Vibrations.get_zero_point_energy` (lines 289-291), `freq=None` path:
`0.5 * self.hnu.real.sum()` — half the sum of the real parts of all spectrum
entries, with no filtering. -/
noncomputable def get_zero_point_energy (hnu : List (ℝ × ℝ)) : ℝ :=
  0.5 * hnu.foldl (fun acc f => acc + f.1) 0

/-- Concrete all-zero force records over `ℝ`, for witnesses. -/
noncomputable def exRecordsR : ℕ → Fin 3 → ℤ → Force ℝ := fun _ _ _ _ _ => 0

/-- Concrete all-zero equilibrium record over `ℝ`, for witnesses. -/
noncomputable def exFeqR : Force ℝ := fun _ _ => 0

/-- Concrete unit masses, for witnesses. -/
noncomputable def exM : ℕ → ℝ := fun _ => 1

/-- A concrete stand-in eigensolver returning the ascending eigenvalue list
`[-1, 0, 2]` for every matrix over the single-tracked-atom index type. -/
noncomputable def exEigh3 : Matrix (HIdx [0]) (HIdx [0]) ℝ → List ℝ :=
  fun _ => [-1, 0, 2]

/-- A concrete eigenvector over two tracked atoms, for witnesses. -/
noncomputable def exVec1 : HIdx [0, 1] → ℝ := fun _ => 1

/-- Positions of the configuration: component `i` of atom `a`'s position. -/
abbrev Pos : Type := ℕ → Fin 3 → ℚ

/-- A force record payload over `ℚ`. -/
abbrev ForceQ : Type := Force ℚ

/-- A checkpoint key: the equilibrium record `name.eq.pckl` or a displacement
record `name.{a}{'xyz'[i]}{ndis * sign-char}.pckl`, identified by atom index,
axis, sign (`-1` or `1`) and step count `ndis`. -/
inductive PKey where
  | eq : PKey
  | disp : ℕ → Fin 3 → ℤ → ℕ → PKey
deriving DecidableEq

/-- The backing store of `.pckl` files: which keys exist, and their payloads. -/
abbrev Store : Type := PKey → Option ForceQ

/-- A displacement descriptor as enumerated by the loops of lines 122-127. -/
structure Desc where
  a : ℕ
  axis : Fin 3
  sign : ℤ
  ndis : ℕ
deriving DecidableEq

/-- The store key of a displacement descriptor. -/
def keyOfDesc (d : Desc) : PKey := PKey.disp d.a d.axis d.sign d.ndis

/-- The mutable state of a run: configuration positions, backing store, and
the number of force-oracle invocations made so far. -/
structure RunState where
  pos : Pos
  store : Store
  count : ℕ

/-- Write one position component: `self.atoms.positions[a, i] = value`. -/
def setPos (q : Pos) (a : ℕ) (i : Fin 3) (value : ℚ) : Pos :=
  Function.update q a (Function.update (q a) i value)

/-- One displacement iteration of `Vibrations.run` (lines 126-146): if the
descriptor's file exists, skip (`continue`); otherwise set the displaced
coordinate from the pristine copy `p` (line 131), invoke the force oracle
(line 132), and on success write the record and restore the coordinate
(line 146).  On oracle failure the error propagates with the state as it is
at that point: the source has no `try/finally`. -/
def stepD (oracle : Pos → Option ForceQ) (delta : ℚ) (p : Pos) (d : Desc)
    (st : RunState) : Except RunState RunState :=
  if (st.store (keyOfDesc d)).isSome then Except.ok st
  else
    match oracle (setPos st.pos d.a d.axis
        (p d.a d.axis + (d.ndis : ℚ) * (d.sign : ℚ) * delta)) with
    | none =>
        Except.error
          { pos := setPos st.pos d.a d.axis
              (p d.a d.axis + (d.ndis : ℚ) * (d.sign : ℚ) * delta),
            store := st.store, count := st.count + 1 }
    | some F =>
        Except.ok
          { pos := setPos (setPos st.pos d.a d.axis
              (p d.a d.axis + (d.ndis : ℚ) * (d.sign : ℚ) * delta))
              d.a d.axis (p d.a d.axis),
            store := Function.update st.store (keyOfDesc d) (some F),
            count := st.count + 1 }

/-- The equilibrium block of `Vibrations.run` (lines 103-119): compute and
write the equilibrium record if its file does not exist.  Positions are not
touched. -/
def eqStep (oracle : Pos → Option ForceQ) (st : RunState) :
    Except RunState RunState :=
  if (st.store PKey.eq).isSome then Except.ok st
  else
    match oracle st.pos with
    | none => Except.error { st with count := st.count + 1 }
    | some F =>
        Except.ok { st with store := Function.update st.store PKey.eq (some F),
                            count := st.count + 1 }

/-- The step counts `range(1, nfree/2 + 1)` of line 125. -/
def ndisList : NFree → List ℕ
  | NFree.two => [1]
  | NFree.four => [1, 2]

/-- The displacement descriptors in loop order (lines 122-127): atoms, then
axes, then sign `-1` before `1`, then step counts. -/
def descList (indices : List ℕ) (nf : NFree) : List Desc :=
  indices.flatMap (fun a =>
    (List.finRange 3).flatMap (fun i =>
      ([-1, 1] : List ℤ).flatMap (fun sign =>
        (ndisList nf).map (fun nd => ⟨a, i, sign, nd⟩))))

/-- The keys required by one run: the equilibrium key followed by the
displacement keys in loop order. -/
def keyList (indices : List ℕ) (nf : NFree) : List PKey :=
  PKey.eq :: (descList indices nf).map keyOfDesc

/-- The displacement loop of `Vibrations.run` (lines 122-146). -/
def runLoop (oracle : Pos → Option ForceQ) (delta : ℚ) (p : Pos) :
    List Desc → RunState → Except RunState RunState
  | [], st => Except.ok st
  | d :: ds, st =>
      match stepD oracle delta p d st with
      | Except.error e => Except.error e
      | Except.ok st1 => runLoop oracle delta p ds st1

/-- `Vibrations.run`: the equilibrium block, then `p = positions.copy()`
(line 121), the displacement loop, and the final `set_positions(p)`
(line 147). -/
def run (oracle : Pos → Option ForceQ) (delta : ℚ) (indices : List ℕ)
    (nf : NFree) (st : RunState) : Except RunState RunState :=
  match eqStep oracle st with
  | Except.error e => Except.error e
  | Except.ok st1 =>
      match runLoop oracle delta st1.pos (descList indices nf) st1 with
      | Except.error e => Except.error e
      | Except.ok st2 => Except.ok { st2 with pos := st1.pos }

/-- The state carried by a run result, successful or not. -/
def stateOf : Except RunState RunState → RunState
  | Except.ok st => st
  | Except.error st => st

/-- The number of keys of `ks` that have no record in `store`. -/
def absentCount (store : Store) (ks : List PKey) : ℕ :=
  ks.countP (fun k => !(store k).isSome)

/-- A force oracle that always fails, for the restoration counterexample. -/
def oracleFail : Pos → Option ForceQ := fun _ => none

/-- A force oracle that always succeeds, returning zero forces. -/
def oracleZero : Pos → Option ForceQ := fun _ => some (fun _ _ => 0)

/-- All-zero positions. -/
def pZero : Pos := fun _ _ => 0

/-- The empty store. -/
def storeEmpty : Store := fun _ => none

/-- Initial state: origin positions, empty store, no invocations. -/
def st0 : RunState := { pos := pZero, store := storeEmpty, count := 0 }

/-- The descriptor for displacing atom 0 along axis 0 by one positive step. -/
def d0 : Desc := { a := 0, axis := 0, sign := 1, ndis := 1 }

end VibSpec

namespace VibSpec

/-- C6: after the symmetrization step `H += H.copy().T` of `Vibrations.read`,
the stored matrix is exactly symmetric: `H` equals its transpose, for every input set of cached
force records, in every scheme and direction. -/
theorem assembledH_symm {α : Type} [Field α] (idx : List ℕ) (numAtoms : ℕ)
    (method : Method) (direction : Direction) (nf : NFree) (delta : α)
    (records : ℕ → Fin 3 → ℤ → Force α) (feq : Force α) :
    Matrix.transpose (assembledH idx numAtoms method direction nf delta records feq)
      = assembledH idx numAtoms method direction nf delta records feq := by
  unfold assembledH
  rw [Matrix.transpose_add, Matrix.transpose_transpose, add_comm]

/-- C2 (amended): for the central 2-point scheme the code stores each
pre-symmetrization row as a quarter of `(F(-d) - F(+d))/d` - half of the
claimed half - and the subsequent `H += H.copy().T` step makes each entry of
the assembled Hessian the symmetric average `(D r c + D c r) / 2` of the
claimed row matrix `D = specCentral2Row`; so the claimed per-row formula holds
exactly when `D` is symmetric, and the sign convention (no extra negation) is
as claimed. -/
theorem assembledH_central2_eq_symmetrized_claimRows {α : Type} [Field α]
    (idx : List ℕ) (numAtoms : ℕ) (delta : α)
    (records : ℕ → Fin 3 → ℤ → Force α) (feq : Force α) (r c : HIdx idx) :
    assembledH idx numAtoms Method.standard Direction.central NFree.two delta
        records feq r c
      = (specCentral2Row idx delta records r c
          + specCentral2Row idx delta records c r) / 2 := by
  simp only [assembledH, preH, specCentral2Row, Matrix.add_apply,
    Matrix.transpose_apply]
  ring

/-- C2 counterexample: with records `exRecords` (one tracked atom, `delta = 1`)
the entry `((0,0),(0,1))` of the assembled central 2-point Hessian is `1/2`
while the claimed row formula gives `1`: the rows of the assembled Hessian are
not the claimed rows for arbitrary cached force records. -/
theorem central2_claimRow_counterexample :
    assembledH [0] 1 Method.standard Direction.central NFree.two (1 : ℚ)
        exRecords exFeq (⟨0, by decide⟩, ⟨0, by decide⟩)
        (⟨0, by decide⟩, ⟨1, by decide⟩)
      ≠ specCentral2Row [0] (1 : ℚ) exRecords
        (⟨0, by decide⟩, ⟨0, by decide⟩) (⟨0, by decide⟩, ⟨1, by decide⟩) := by
  norm_num [assembledH, preH, specCentral2Row, exRecords, exFeq,
    Matrix.add_apply, Matrix.transpose_apply]

/-- C10: for direction forward or backward, the assembled Hessian is identical
for `nfree = 2` and `nfree = 4`: the two-step records are read when
`nfree = 4` but do not enter the forward/backward difference formulas, which
use only the equilibrium record and the single-step records. -/
theorem assembledH_forward_backward_nfree_indep {α : Type} [Field α]
    (idx : List ℕ) (numAtoms : ℕ) (method : Method) (delta : α)
    (records : ℕ → Fin 3 → ℤ → Force α) (feq : Force α) :
    (assembledH idx numAtoms method Direction.forward NFree.two delta records
        feq
      = assembledH idx numAtoms method Direction.forward NFree.four delta
          records feq)
    ∧ (assembledH idx numAtoms method Direction.backward NFree.two delta
        records feq
      = assembledH idx numAtoms method Direction.backward NFree.four delta
          records feq) :=
  ⟨rfl, rfl⟩

/-- C8: under the Frederiksen method, each displaced record has the sum of
forces over all atoms subtracted from the displaced atom's own force component
(all other atoms unchanged), and this happens before the finite-difference
combination: assembling with the Frederiksen method equals assembling with the
standard method over the corrected records. -/
theorem frederiksen_correction_ok {α : Type} [Field α] (numAtoms : ℕ) :
    (∀ (a : ℕ) (F : Force α) (b : ℕ) (c : Fin 3),
        fredCorrect numAtoms a F b c =
          if b = a then F a c - ∑ b2 ∈ Finset.range numAtoms, F b2 c
          else F b c)
    ∧ (∀ (idx : List ℕ) (direction : Direction) (nf : NFree) (delta : α)
        (records : ℕ → Fin 3 → ℤ → Force α) (feq : Force α),
        assembledH idx numAtoms Method.frederiksen direction nf delta records
            feq
          = assembledH idx numAtoms Method.standard direction nf delta
              (fun a ax st => fredCorrect numAtoms a (records a ax st)) feq) := by
  constructor
  · intro a F b c
    by_cases h : b = a
    · subst h
      simp [fredCorrect]
    · simp [fredCorrect, Function.update_noteq h, h]
  · intro idx direction nf delta records feq
    rfl

/-- Helper: with a positive conversion factor, a spectrum entry has zero
imaginary part exactly when its eigenvalue is nonnegative. -/
theorem hnuEntry_im_zero_iff (s omega2 : ℝ) (hs : 0 < s) :
    (hnuEntry s omega2).2 = 0 ↔ 0 ≤ omega2 := by
  by_cases h : 0 ≤ omega2
  · simp [hnuEntry, h]
  · have h1 : 0 < Real.sqrt (-omega2) :=
      Real.sqrt_pos.mpr (by linarith [not_le.mp h])
    simp [hnuEntry, h, ne_of_gt (mul_pos hs h1)]

/-- C5: the spectral conversion is total on eigenvalues: a negative eigenvalue
of the mass-weighted Hessian produces a purely imaginary spectrum entry (zero
real part, nonzero imaginary part) instead of an error, and a nonnegative
eigenvalue produces the real entry `s * sqrt omega2`. -/
theorem hnuEntry_sign_handling (s omega2 : ℝ) (hs : 0 < s) :
    (omega2 < 0 → (hnuEntry s omega2).1 = 0 ∧ (hnuEntry s omega2).2 ≠ 0)
    ∧ (0 ≤ omega2 → hnuEntry s omega2 = (s * Real.sqrt omega2, 0)) := by
  constructor
  · intro hneg
    have hnot : ¬ 0 ≤ omega2 := not_le.mpr hneg
    have h1 : 0 < Real.sqrt (-omega2) := Real.sqrt_pos.mpr (by linarith)
    rw [hnuEntry, if_neg hnot]
    exact ⟨rfl, ne_of_gt (mul_pos hs h1)⟩
  · intro hpos
    rw [hnuEntry, if_pos hpos]

/-- Witness for C5 at the concrete eigenvalue `-1` with factor `1`. -/
theorem hnuEntry_sign_handling_witness :
    (0:ℝ) < 1
    ∧ (((-1:ℝ) < 0 → (hnuEntry 1 (-1)).1 = 0 ∧ (hnuEntry 1 (-1)).2 ≠ 0)
      ∧ ((0:ℝ) ≤ -1 → hnuEntry 1 (-1) = (1 * Real.sqrt (-1), 0))) :=
  ⟨by norm_num, hnuEntry_sign_handling 1 (-1) (by norm_num)⟩

/-- C7: with an eigensolver returning one eigenvalue per index of the
mass-weighted Hessian in ascending order (the documented behaviour of
`numpy.linalg.eigh`), the spectrum has exactly `3 * |tracked atoms|` entries —
for every method, direction and scheme — and the imaginary entries
(corresponding to the most negative eigenvalues) come first: once an entry is
real, every later entry is real. -/
theorem spectrum_length_and_order (idx : List ℕ) (numAtoms : ℕ) (m : ℕ → ℝ)
    (s : ℝ) (eigh : Matrix (HIdx idx) (HIdx idx) ℝ → List ℝ)
    (method : Method) (direction : Direction) (nf : NFree) (delta : ℝ)
    (records : ℕ → Fin 3 → ℤ → Force ℝ) (feq : Force ℝ)
    (hs : 0 < s)
    (hlen : ∀ M, (eigh M).length = Fintype.card (HIdx idx))
    (hsorted : ∀ M, List.Sorted (· ≤ ·) (eigh M)) :
    (hnuList s (eigh (massWeightedH idx m
        (assembledH idx numAtoms method direction nf delta records feq)))).length
      = 3 * idx.length
    ∧ List.Pairwise (fun x y : ℝ × ℝ => x.2 = 0 → y.2 = 0)
        (hnuList s (eigh (massWeightedH idx m
          (assembledH idx numAtoms method direction nf delta records feq)))) := by
  constructor
  · rw [hnuList, List.length_map, hlen]
    simp [mul_comm]
  · refine List.Pairwise.map _ ?_ (hsorted _)
    intro a b hab h0
    rw [hnuEntry_im_zero_iff s b hs]
    rw [hnuEntry_im_zero_iff s a hs] at h0
    linarith

/-- Witness for C7: a single tracked atom, the stand-in eigensolver
`exEigh3` (eigenvalues `[-1, 0, 2]`) and factor `1`. -/
theorem spectrum_length_and_order_witness :
    (hnuList 1 (exEigh3 (massWeightedH [0] exM
        (assembledH [0] 1 Method.standard Direction.central NFree.two 1
          exRecordsR exFeqR)))).length = 3 * List.length [0]
    ∧ List.Pairwise (fun x y : ℝ × ℝ => x.2 = 0 → y.2 = 0)
        (hnuList 1 (exEigh3 (massWeightedH [0] exM
          (assembledH [0] 1 Method.standard Direction.central NFree.two 1
            exRecordsR exFeqR)))) :=
  spectrum_length_and_order [0] 1 exM 1 exEigh3 Method.standard
    Direction.central NFree.two 1 exRecordsR exFeqR (by norm_num)
    (fun M => by simp [exEigh3, Fintype.card_prod])
    (fun M => by
      show List.Sorted (· ≤ ·) ([-1, 0, 2] : List ℝ)
      norm_num [List.sorted_cons])

/-- Helper: a left fold of pointwise updates leaves untouched any atom index
that none of the keys hits. -/
theorem foldl_update_apply_of_forall_ne {γ : Type} (key : γ → ℕ)
    (val : γ → Fin 3 → ℝ) :
    ∀ (ks : List γ) (acc : ℕ → Fin 3 → ℝ) (j : ℕ),
      (∀ k ∈ ks, key k ≠ j) →
      ks.foldl (fun acc2 k2 => Function.update acc2 (key k2) (val k2)) acc j
        = acc j := by
  intro ks
  induction ks with
  | nil => intro acc j _; rfl
  | cons khd ktl ih =>
    intro acc j hne
    rw [List.foldl_cons,
      ih _ j (fun k hk => hne k (List.mem_cons_of_mem _ hk))]
    exact Function.update_noteq
      (Ne.symm (hne khd (List.mem_cons_self _ _))) _ _

/-- Helper: a left fold of pointwise updates whose keys identify the listed
elements uniquely sends the key of a listed element to that element's value. -/
theorem foldl_update_apply_of_mem {γ : Type} (key : γ → ℕ)
    (val : γ → Fin 3 → ℝ) :
    ∀ (ks : List γ) (acc : ℕ → Fin 3 → ℝ) (k : γ), k ∈ ks → ks.Nodup →
      (∀ k2 ∈ ks, key k2 = key k → k2 = k) →
      ks.foldl (fun acc2 k2 => Function.update acc2 (key k2) (val k2)) acc
          (key k)
        = val k := by
  intro ks
  induction ks with
  | nil => intro acc k hk _ _; exact absurd hk (List.not_mem_nil k)
  | cons khd ktl ih =>
    intro acc k hk hnd huniq
    rw [List.foldl_cons]
    rcases List.mem_cons.mp hk with hkhd | hktl
    · subst hkhd
      have hne : ∀ k2 ∈ ktl, key k2 ≠ key k := by
        intro k2 hk2 hkey
        have h2 : k2 = k := huniq k2 (List.mem_cons_of_mem _ hk2) hkey
        exact (List.nodup_cons.mp hnd).1 (h2 ▸ hk2)
      rw [foldl_update_apply_of_forall_ne key val ktl _ (key k) hne]
      exact Function.update_same _ _ _
    · exact ih _ k hktl (List.nodup_cons.mp hnd).2
        (fun k2 hk2 hkey => huniq k2 (List.mem_cons_of_mem _ hk2) hkey)

/-- C9: for a duplicate-free tracked-index list, the mode reconstructor
returns a displacement field over the full original atom set in which every
untracked atom's entry is zero and a tracked atom's component is the
eigenvector component at that atom's tracked position, scaled by the inverse
square root of the atom's mass.  (The embedding is a pure function of its
inputs; the source call builds a fresh array and mutates neither positions
nor spectrum nor modes.) -/
theorem get_mode_spec (idx : List ℕ) (m : ℕ → ℝ) (v : HIdx idx → ℝ)
    (hnd : idx.Nodup) (j : ℕ) (c : Fin 3) :
    get_mode idx m v j c
      = if h : j ∈ idx then
          v (⟨List.indexOf j idx, List.indexOf_lt_length.mpr h⟩, c)
            * (Real.sqrt (m j))⁻¹
        else 0 := by
  by_cases h : j ∈ idx
  · rw [dif_pos h]
    have hlt : List.indexOf j idx < idx.length := List.indexOf_lt_length.mpr h
    have hgetk : idx.get ⟨List.indexOf j idx, hlt⟩ = j := List.indexOf_get hlt
    have huniq : ∀ k2 ∈ List.finRange idx.length,
        idx.get k2 = idx.get ⟨List.indexOf j idx, hlt⟩ →
        k2 = ⟨List.indexOf j idx, hlt⟩ := by
      intro k2 _ hkey
      exact (List.Nodup.get_inj_iff hnd).mp hkey
    have hmain := foldl_update_apply_of_mem (fun k2 => idx.get k2)
      (fun k2 c2 => v (k2, c2) * (Real.sqrt (m (idx.get k2)))⁻¹)
      (List.finRange idx.length) (fun _ _ => 0) ⟨List.indexOf j idx, hlt⟩
      (List.mem_finRange _) (List.nodup_finRange _) huniq
    have hc := congrFun hmain c
    simp only at hc
    rw [hgetk] at hc
    exact hc
  · rw [dif_neg h]
    have hne : ∀ k2 ∈ List.finRange idx.length, idx.get k2 ≠ j := by
      intro k2 _ hkey
      exact h (hkey ▸ List.get_mem idx k2.1 k2.2)
    exact congrFun (foldl_update_apply_of_forall_ne (fun k2 => idx.get k2)
      (fun k2 c2 => v (k2, c2) * (Real.sqrt (m (idx.get k2)))⁻¹)
      (List.finRange idx.length) (fun _ _ => 0) j hne) c

/-- Witness for C9 on the two-atom tracked list `[0, 1]` with unit masses and
an all-ones eigenvector, evaluated at tracked atom `0`, component `0`. -/
theorem get_mode_spec_witness :
    List.Nodup [0, 1]
    ∧ get_mode [0, 1] exM exVec1 0 0
      = (if h : (0:ℕ) ∈ [0, 1] then
          exVec1 (⟨List.indexOf 0 [0, 1], List.indexOf_lt_length.mpr h⟩, 0)
            * (Real.sqrt (exM 0))⁻¹
        else 0) :=
  ⟨by decide, get_mode_spec [0, 1] exM exVec1 (by decide) 0 0⟩

/-- Helper: a guarded accumulation over a list equals the initial value plus
the sum of the term over exactly the entries satisfying the guard. -/
theorem foldl_if_eq_sum_filter {γ : Type} (p : γ → Prop) [DecidablePred p]
    (g : γ → ℝ) :
    ∀ (l : List γ) (init : ℝ),
      l.foldl (fun acc f => if p f then acc + g f else acc) init
        = init + ((l.filter (fun f => decide (p f))).map g).sum := by
  intro l
  induction l with
  | nil => intro init; simp
  | cons a l2 ih =>
    intro init
    rw [List.foldl_cons, List.filter_cons]
    by_cases h : p a
    · rw [if_pos h, ih]
      simp [h, add_assoc]
    · rw [if_neg h, ih]
      simp [h]

/-- Helper: plain accumulation equals the initial value plus the list sum. -/
theorem foldl_add_eq_sum :
    ∀ (l : List (ℝ × ℝ)) (init : ℝ),
      l.foldl (fun acc f => acc + f.1) init = init + (l.map Prod.fst).sum := by
  intro l
  induction l with
  | nil => intro init; simp
  | cons a l2 ih =>
    intro init
    rw [List.foldl_cons, ih]
    simp [add_assoc]

/-- C4: enthalpy and entropy accumulate their harmonic-oscillator terms over
exactly the spectrum entries with zero imaginary part and real frequency at
least the cutoff threshold; zero-point energy is half the sum of the real
parts of all entries, with no cutoff and no imaginary-mode exclusion.  The
last conjunct is the spec's scenario: frequencies 5 and 1877 cm^-1 with the
default cutoff 10 retain only the 1877 cm^-1 term. -/
theorem thermo_cutoff_and_zpe (kB e hp cc T threshold : ℝ)
    (freq hnu : List (ℝ × ℝ)) :
    get_enthalpy kB e hp cc T threshold freq
      = ((freq.filter (fun f => decide (f.2 = 0 ∧ threshold ≤ f.1))).map
          (fun f => enthalpyTerm kB e hp cc T f.1)).sum
    ∧ get_entropy kB e hp cc T threshold freq
      = ((freq.filter (fun f => decide (f.2 = 0 ∧ threshold ≤ f.1))).map
          (fun f => entropyTerm kB e hp cc T f.1)).sum
    ∧ get_zero_point_energy hnu = 0.5 * (hnu.map Prod.fst).sum
    ∧ get_enthalpy kB e hp cc T 10 [(5, 0), (1877, 0)]
      = enthalpyTerm kB e hp cc T 1877 := by
  refine ⟨?_, ?_, ?_, ?_⟩
  · exact (foldl_if_eq_sum_filter
      (fun f : ℝ × ℝ => f.2 = 0 ∧ threshold ≤ f.1)
      (fun f => enthalpyTerm kB e hp cc T f.1) freq 0).trans (zero_add _)
  · exact (foldl_if_eq_sum_filter
      (fun f : ℝ × ℝ => f.2 = 0 ∧ threshold ≤ f.1)
      (fun f => entropyTerm kB e hp cc T f.1) freq 0).trans (zero_add _)
  · exact congrArg (fun x => 0.5 * x)
      ((foldl_add_eq_sum hnu 0).trans (zero_add _))
  · norm_num [get_enthalpy, List.foldl_cons, List.foldl_nil]

/-- Helper: writing the same position slot twice keeps only the second write. -/
theorem setPos_setPos (q : Pos) (a : ℕ) (i : Fin 3) (v w : ℚ) :
    setPos (setPos q a i v) a i w = setPos q a i w := by
  simp [setPos, Function.update_same, Function.update_idem]

/-- Helper: rewriting a position slot with its current value is the identity. -/
theorem setPos_self (q : Pos) (a : ℕ) (i : Fin 3) :
    setPos q a i (q a i) = q := by
  simp [setPos, Function.update_eq_self]

/-- Helper: a successful displacement step returns the positions to the
pristine copy. -/
theorem stepD_ok_pos (oracle : Pos → Option ForceQ) (delta : ℚ) (p : Pos)
    (d : Desc) (st st1 : RunState) (hp : st.pos = p)
    (h : stepD oracle delta p d st = Except.ok st1) : st1.pos = p := by
  unfold stepD at h
  by_cases hk : (st.store (keyOfDesc d)).isSome = true
  · rw [if_pos hk] at h
    cases h
    exact hp
  · rw [if_neg hk] at h
    cases horacle : oracle (setPos st.pos d.a d.axis
        (p d.a d.axis + (d.ndis : ℚ) * (d.sign : ℚ) * delta)) with
    | none =>
      rw [horacle] at h
      simp at h
    | some F =>
      rw [horacle] at h
      cases h
      show setPos (setPos st.pos d.a d.axis
          (p d.a d.axis + (d.ndis : ℚ) * (d.sign : ℚ) * delta))
          d.a d.axis (p d.a d.axis) = p
      rw [setPos_setPos, hp, setPos_self]

/-- Helper: a successful equilibrium block leaves the positions unchanged,
adds one invocation exactly when the equilibrium record was absent, changes
no store entry other than the equilibrium key, and makes the store contain
the old records plus the equilibrium record. -/
theorem eqStep_ok_spec (oracle : Pos → Option ForceQ) (st st1 : RunState)
    (h : eqStep oracle st = Except.ok st1) :
    st1.pos = st.pos
    ∧ st1.count = st.count + (if (st.store PKey.eq).isSome then 0 else 1)
    ∧ (∀ k, k ≠ PKey.eq → st1.store k = st.store k)
    ∧ ∀ k, ((st1.store k).isSome = true ↔
        ((st.store k).isSome = true ∨ k = PKey.eq)) := by
  unfold eqStep at h
  by_cases hk : (st.store PKey.eq).isSome = true
  · rw [if_pos hk] at h
    cases h
    refine ⟨rfl, by simp [hk], fun k _ => rfl, ?_⟩
    intro k
    constructor
    · exact Or.inl
    · rintro (hs | hkeq)
      · exact hs
      · rw [hkeq]
        exact hk
  · rw [if_neg hk] at h
    cases horacle : oracle st.pos with
    | none =>
      rw [horacle] at h
      simp at h
    | some F =>
      rw [horacle] at h
      cases h
      refine ⟨rfl, by simp [hk], ?_, ?_⟩
      · intro k hkeq
        exact Function.update_noteq hkeq _ _
      · intro k
        by_cases hkeq : k = PKey.eq
        · subst hkeq
          simp [Function.update_same]
        · simp [Function.update_noteq hkeq, hkeq]

/-- Helper: a successful displacement loop over descriptors with pairwise
distinct keys makes exactly one oracle invocation per key absent from the
starting store, and afterwards every processed key is present, with all
previously present records retained. -/
theorem runLoop_ok_spec (oracle : Pos → Option ForceQ) (delta : ℚ) (p : Pos) :
    ∀ (ds : List Desc) (st st2 : RunState),
      (ds.map keyOfDesc).Nodup →
      runLoop oracle delta p ds st = Except.ok st2 →
      st2.count = st.count + absentCount st.store (ds.map keyOfDesc)
      ∧ ∀ k, ((st2.store k).isSome = true ↔
          ((st.store k).isSome = true ∨ k ∈ ds.map keyOfDesc)) := by
  intro ds
  induction ds with
  | nil =>
    intro st st2 _ h
    simp only [runLoop] at h
    cases h
    exact ⟨by simp [absentCount], fun k => by simp⟩
  | cons d ds2 ih =>
    intro st st2 hnd h
    rw [List.map_cons] at hnd
    have hnd2 := List.nodup_cons.mp hnd
    simp only [runLoop] at h
    by_cases hk : (st.store (keyOfDesc d)).isSome = true
    · have hstep : stepD oracle delta p d st = Except.ok st := by
        unfold stepD
        rw [if_pos hk]
      rw [hstep] at h
      obtain ⟨hcount, hstore⟩ := ih st st2 hnd2.2 h
      have hk2 : st.store (keyOfDesc d) ≠ none := by
        intro hn
        rw [hn] at hk
        simp at hk
      constructor
      · rw [hcount]
        have habs : absentCount st.store ((d :: ds2).map keyOfDesc)
            = absentCount st.store (ds2.map keyOfDesc) := by
          simp [absentCount, List.countP_cons, hk2]
        rw [habs]
      · intro k
        rw [hstore k]
        by_cases hkd : k = keyOfDesc d
        · subst hkd
          simp [hk]
        · simp [List.mem_cons, hkd]
    · cases horacle : oracle (setPos st.pos d.a d.axis
          (p d.a d.axis + (d.ndis : ℚ) * (d.sign : ℚ) * delta)) with
      | none =>
        have hstep : stepD oracle delta p d st = Except.error
            { pos := setPos st.pos d.a d.axis
                (p d.a d.axis + (d.ndis : ℚ) * (d.sign : ℚ) * delta),
              store := st.store, count := st.count + 1 } := by
          unfold stepD
          rw [if_neg hk, horacle]
        rw [hstep] at h
        simp at h
      | some F =>
        have hstep : stepD oracle delta p d st = Except.ok
            { pos := setPos (setPos st.pos d.a d.axis
                (p d.a d.axis + (d.ndis : ℚ) * (d.sign : ℚ) * delta))
                d.a d.axis (p d.a d.axis),
              store := Function.update st.store (keyOfDesc d) (some F),
              count := st.count + 1 } := by
          unfold stepD
          rw [if_neg hk, horacle]
        rw [hstep] at h
        obtain ⟨hcount, hstore⟩ := ih _ st2 hnd2.2 h
        simp only at hcount hstore
        have hk2 : st.store (keyOfDesc d) = none := by
          cases hx : st.store (keyOfDesc d) with
          | none => rfl
          | some F2 =>
            rw [hx] at hk
            simp at hk
        constructor
        · rw [hcount]
          have habs : absentCount (Function.update st.store (keyOfDesc d)
              (some F)) (ds2.map keyOfDesc)
              = absentCount st.store (ds2.map keyOfDesc) := by
            refine List.countP_congr ?_
            intro k hkmem
            have hkd : k ≠ keyOfDesc d := fun hEq => hnd2.1 (hEq ▸ hkmem)
            simp [Function.update_noteq hkd]
          have hcons : absentCount st.store ((d :: ds2).map keyOfDesc)
              = absentCount st.store (ds2.map keyOfDesc) + 1 := by
            simp [absentCount, List.countP_cons, hk2]
          rw [habs, hcons]
          omega
        · intro k
          rw [hstore k]
          by_cases hkd : k = keyOfDesc d
          · subst hkd
            simp [Function.update_same, List.mem_cons]
          · simp [Function.update_noteq hkd, List.mem_cons, hkd]

/-- Helper: a successful run decomposes into a successful equilibrium block
followed by a successful displacement loop, with the final positions reset to
the pristine copy. -/
theorem run_ok_cases (oracle : Pos → Option ForceQ) (delta : ℚ)
    (indices : List ℕ) (nf : NFree) (st : RunState)
    (hok : (run oracle delta indices nf st).isOk = true) :
    ∃ st1 st2, eqStep oracle st = Except.ok st1
      ∧ runLoop oracle delta st1.pos (descList indices nf) st1 = Except.ok st2
      ∧ run oracle delta indices nf st
          = Except.ok { st2 with pos := st1.pos } := by
  cases heq : eqStep oracle st with
  | error e =>
    exfalso
    unfold run at hok
    rw [heq] at hok
    simp [Except.isOk, Except.toBool] at hok
  | ok st1 =>
    cases hloop : runLoop oracle delta st1.pos (descList indices nf) st1 with
    | error e =>
      exfalso
      simp only [run, heq] at hok
      simp only [hloop] at hok
      simp [Except.isOk, Except.toBool] at hok
    | ok st2 =>
      refine ⟨st1, st2, rfl, hloop, ?_⟩
      simp only [run, heq, hloop]

/-- C1 (amended): positions are restored on success — after a successful
displacement step the configuration is back at the pristine copy (line 146),
and a successful run ends with `set_positions(p)` (line 147), so it returns
the positions it started from.  On oracle failure, however, the source has no
`try/finally` and the displaced coordinate stays perturbed (see the
counterexample), so the restoration invariant holds for successful calls
only. -/
theorem positions_restored_on_success (oracle : Pos → Option ForceQ)
    (delta : ℚ) (p : Pos) (d : Desc) (indices : List ℕ) (nf : NFree)
    (st : RunState) (hp : st.pos = p)
    (h1 : (stepD oracle delta p d st).isOk = true)
    (h2 : (run oracle delta indices nf st).isOk = true) :
    (stateOf (stepD oracle delta p d st)).pos = p
    ∧ (stateOf (run oracle delta indices nf st)).pos = st.pos := by
  constructor
  · cases hres : stepD oracle delta p d st with
    | error e =>
      rw [hres] at h1
      simp [Except.isOk, Except.toBool] at h1
    | ok st1 =>
      exact stepD_ok_pos oracle delta p d st st1 hp hres
  · obtain ⟨st1, st2, heq, hloop, hrun⟩ :=
      run_ok_cases oracle delta indices nf st h2
    rw [hrun]
    show st1.pos = st.pos
    exact (eqStep_ok_spec oracle st st1 heq).1

/-- Witness for C1 on a concrete successful step and run: one tracked atom,
empty store, an oracle that always returns zero forces. -/
theorem positions_restored_on_success_witness :
    st0.pos = pZero
    ∧ (stepD oracleZero 1 pZero d0 st0).isOk = true
    ∧ (run oracleZero 1 [0] NFree.two st0).isOk = true
    ∧ ((stateOf (stepD oracleZero 1 pZero d0 st0)).pos = pZero
      ∧ (stateOf (run oracleZero 1 [0] NFree.two st0)).pos = st0.pos) :=
  ⟨rfl, by decide, by decide,
    positions_restored_on_success oracleZero 1 pZero d0 [0] NFree.two st0 rfl
      (by decide) (by decide)⟩

/-- C1 counterexample: when the oracle fails on a displacement whose record
is absent, the step reports the error but the displaced coordinate is left
perturbed (`0` became `1`): the claimed restoration on failure does not hold
in the code. -/
theorem restoration_on_failure_counterexample :
    (stepD oracleFail 1 pZero d0 st0).isOk = false
    ∧ (stateOf (stepD oracleFail 1 pZero d0 st0)).pos 0 0 ≠ pZero 0 0 := by
  constructor
  · rfl
  · norm_num [stepD, stateOf, oracleFail, pZero, st0, storeEmpty, d0,
      keyOfDesc, setPos, Function.update_same]

/-- C3: a successful run makes exactly one oracle invocation per required
key (equilibrium plus displacement descriptors) absent from the starting
store — that is, `n - k` invocations when `k` of the `n` required records
already exist — because each existence check happens before any evaluation;
afterwards every required key is present, so a second run over the same store
makes zero new invocations. -/
theorem run_invocation_count (oracle : Pos → Option ForceQ) (delta : ℚ)
    (indices : List ℕ) (nf : NFree) (st : RunState)
    (hnd : (keyList indices nf).Nodup)
    (hok : (run oracle delta indices nf st).isOk = true) :
    (stateOf (run oracle delta indices nf st)).count
        = st.count + absentCount st.store (keyList indices nf)
    ∧ absentCount (stateOf (run oracle delta indices nf st)).store
        (keyList indices nf) = 0
    ∧ absentCount st.store (keyList indices nf)
        = (keyList indices nf).length
          - (keyList indices nf).countP (fun k => (st.store k).isSome) := by
  obtain ⟨st1, st2, heq, hloop, hrun⟩ :=
    run_ok_cases oracle delta indices nf st hok
  obtain ⟨hpos1, hcount1, hstoreEq1, hstoreIff1⟩ := eqStep_ok_spec oracle st st1 heq
  have hnd2 : PKey.eq ∉ (descList indices nf).map keyOfDesc
      ∧ ((descList indices nf).map keyOfDesc).Nodup := List.nodup_cons.mp hnd
  obtain ⟨hcount2, hstoreIff2⟩ := runLoop_ok_spec oracle delta st1.pos
    (descList indices nf) st1 st2 hnd2.2 hloop
  rw [hrun]
  refine ⟨?_, ?_, ?_⟩
  · show st2.count = st.count + absentCount st.store (keyList indices nf)
    have habs : absentCount st1.store ((descList indices nf).map keyOfDesc)
        = absentCount st.store ((descList indices nf).map keyOfDesc) := by
      refine List.countP_congr ?_
      intro k hkmem
      have hkne : k ≠ PKey.eq := fun hEq => hnd2.1 (hEq ▸ hkmem)
      simp [hstoreEq1 k hkne]
    have hcons : absentCount st.store (keyList indices nf)
        = (if (st.store PKey.eq).isSome then 0 else 1)
          + absentCount st.store ((descList indices nf).map keyOfDesc) := by
      by_cases hc : (st.store PKey.eq).isSome = true
      · have hc2 : st.store PKey.eq ≠ none := by
          intro hn
          rw [hn] at hc
          simp at hc
        simp [keyList, absentCount, List.countP_cons, hc, hc2]
      · have hc2 : st.store PKey.eq = none := by
          cases hx : st.store PKey.eq with
          | none => rfl
          | some F2 =>
            rw [hx] at hc
            simp at hc
        simp [keyList, absentCount, List.countP_cons, hc, hc2, Nat.add_comm]
    rw [hcount2, hcount1, habs, hcons]
    omega
  · show absentCount st2.store (keyList indices nf) = 0
    rw [absentCount, List.countP_eq_zero]
    intro k hkmem
    have hpresent : (st2.store k).isSome = true := by
      rw [hstoreIff2 k]
      rcases List.mem_cons.mp hkmem with hkeq | hkdm
      · left
        rw [hstoreIff1 k]
        right
        exact hkeq
      · right
        exact hkdm
    simp [hpresent]
  · have hlen := List.length_eq_countP_add_countP
      (fun k => (st.store k).isSome) (keyList indices nf)
    have hcongr : (keyList indices nf).countP
        (fun a => decide ¬((st.store a).isSome = true))
        = absentCount st.store (keyList indices nf) := by
      rw [absentCount]
      refine List.countP_congr ?_
      intro k _
      simp
    omega

/-- Witness for C3: one tracked atom, `nfree = 2`, empty store — all 7
required keys (equilibrium plus 6 displacements) are absent and the run
succeeds. -/
theorem run_invocation_count_witness :
    (keyList [0] NFree.two).Nodup
    ∧ (run oracleZero 1 [0] NFree.two st0).isOk = true
    ∧ ((stateOf (run oracleZero 1 [0] NFree.two st0)).count
        = st0.count + absentCount st0.store (keyList [0] NFree.two)
      ∧ absentCount (stateOf (run oracleZero 1 [0] NFree.two st0)).store
          (keyList [0] NFree.two) = 0
      ∧ absentCount st0.store (keyList [0] NFree.two)
          = (keyList [0] NFree.two).length
            - (keyList [0] NFree.two).countP (fun k => (st0.store k).isSome)) :=
  ⟨by decide, by decide,
    run_invocation_count oracleZero 1 [0] NFree.two st0 (by decide) (by decide)⟩

end VibSpec
